import Mathlib

/-!
Verification development for the NFT transfer-log replayer and holder
aggregator of `chaindata/eth-mainnet/process_nft_holders.py`.

The script replays an ordered list of transfer events into two mutable
dictionaries:
  * `nft_owners`    : tokenId -> current owner address (a Python dict),
  * `owner_tokens`  : owner address -> list of tokenIds (a `defaultdict(list)`),
then builds a holder summary sorted by descending token count and writes a
JSON record plus a CSV projection.

We embed the dictionaries as insertion-ordered association lists (Python
dicts preserve insertion order, which matters for the final iteration over
`owner_tokens.items()`), and the event-processing loop as a fold in the
`Except String` monad: the only way the loop itself can raise is the
`int(topics[3], 16)` call on a non-hex token id (a `ValueError`); events
with fewer than four topics are skipped by the `len(...) >= 4` guard.
-/

namespace NftHolders

/-- Decidable equality on `Except`, so that concrete replay runs can be
settled by `decide`. -/
instance {ε α : Type} [DecidableEq ε] [DecidableEq α] : DecidableEq (Except ε α) := fun a b =>
  match a, b with
  | .error e₁, .error e₂ =>
    if h : e₁ = e₂ then .isTrue (by rw [h]) else .isFalse (by simp [h])
  | .error _, .ok _ => .isFalse (by simp)
  | .ok _, .error _ => .isFalse (by simp)
  | .ok a₁, .ok a₂ =>
    if h : a₁ = a₂ then .isTrue (by rw [h]) else .isFalse (by simp [h])

/-- The burn / zero address constant compared against `to_addr` in the script. -/
def ZERO_ADDRESS : String := "0x0000000000000000000000000000000000000000"

/-- Python `s[-40:]`: the last 40 characters of `s` (all of `s` when shorter). -/
def lastN (n : Nat) (s : String) : String :=
  String.mk (s.toList.drop (s.toList.length - n))

/-- Value of a single hexadecimal digit character, if it is one. -/
def hexDigitVal (c : Char) : Option Nat :=
  if '0' ≤ c ∧ c ≤ '9' then some (c.toNat - '0'.toNat)
  else if 'a' ≤ c ∧ c ≤ 'f' then some (c.toNat - 'a'.toNat + 10)
  else if 'A' ≤ c ∧ c ≤ 'F' then some (c.toNat - 'A'.toNat + 10)
  else none

/-- Fold a list of hex digit characters into a number; `none` on a non-digit. -/
def hexFold (acc : Nat) : List Char → Option Nat
  | [] => some acc
  | c :: cs =>
    match hexDigitVal c with
    | some d => hexFold (16 * acc + d) cs
    | none => none

/-- Python `int(s, 16)` on the (unsigned) strings this pipeline feeds it: an
optional `0x`/`0X` prefix followed by a non-empty run of hex digits; any
other string raises `ValueError`, which we model as `none`. -/
def parseHex (s : String) : Option Nat :=
  let cs := s.toList
  let cs := if cs.take 2 = ['0', 'x'] ∨ cs.take 2 = ['0', 'X'] then cs.drop 2 else cs
  if cs = [] then none else hexFold 0 cs

/-- One record of the input event array; the replay loop only reads the
`topics` field of each transfer. -/
structure TransferEvent where
  topics : List String
deriving DecidableEq, Repr

/-- Lookup in the `nft_owners` dict (`tokenId -> owner`): first entry wins. -/
def lookupNft : List (Nat × String) → Nat → Option String
  | [], _ => none
  | (k, v) :: rest, t => if k = t then some v else lookupNft rest t

/-- `nft_owners[token_id] = to_addr`: replace the value if the key is
present, otherwise append the new binding (Python dicts keep insertion
order and never duplicate keys). -/
def setNft : List (Nat × String) → Nat → String → List (Nat × String)
  | [], t, v => [(t, v)]
  | (k, w) :: rest, t, v => if k = t then (k, v) :: rest else (k, w) :: setNft rest t v

/-- Whether `owner_tokens` has an entry for address `k`. -/
def hasKey : List (String × List Nat) → String → Bool
  | [], _ => false
  | (a, _) :: rest, k => a = k || hasKey rest k

/-- Reading `owner_tokens[k]` as a value: the stored list, `[]` when absent
(the `defaultdict(list)` default). -/
def getD : List (String × List Nat) → String → List Nat
  | [], _ => []
  | (a, w) :: rest, k => if a = k then w else getD rest k

/-- The side effect of a `defaultdict` access `owner_tokens[k]`: if `k` is
absent, an empty-list entry for `k` is inserted (at the end, in insertion
order). -/
def touch (l : List (String × List Nat)) (k : String) : List (String × List Nat) :=
  if hasKey l k then l else l ++ [(k, [])]

/-- Overwrite the (present) entry for `k` with value `v`. -/
def setVal : List (String × List Nat) → String → List Nat → List (String × List Nat)
  | [], _, _ => []
  | (a, w) :: rest, k, v => if a = k then (a, v) :: rest else (a, w) :: setVal rest k v

/-- The replay state: the `nft_owners` dict and the `owner_tokens` defaultdict. -/
structure ReplayState where
  nft : List (Nat × String)
  ot : List (String × List Nat)
deriving DecidableEq, Repr

/-- The initial, empty state. -/
def initState : ReplayState := { nft := [], ot := [] }

/-- The "Remove from previous owner" block of the loop:
```
if token_id in nft_owners:
    prev_owner = nft_owners[token_id]
    if token_id in owner_tokens[prev_owner]:
        owner_tokens[prev_owner].remove(token_id)
```
Note the `owner_tokens[prev_owner]` defaultdict access inserts an empty
entry for `prev_owner` even when the membership test fails, and
`list.remove` deletes the first occurrence only. -/
def removeFromPrev (σ : ReplayState) (token_id : Nat) : ReplayState :=
  match lookupNft σ.nft token_id with
  | some prev_owner =>
    let ot₁ := touch σ.ot prev_owner
    if token_id ∈ getD ot₁ prev_owner then
      { σ with ot := setVal ot₁ prev_owner ((getD ot₁ prev_owner).erase token_id) }
    else
      { σ with ot := ot₁ }
  | none => σ

/-- The "Add to new owner" block of the loop (already knowing
`to_addr != '0x0...0'`):
```
nft_owners[token_id] = to_addr
owner_tokens[to_addr].append(token_id)
```
The `owner_tokens[to_addr]` defaultdict access inserts an empty entry for
`to_addr` when absent, and `append` adds `token_id` at the end. -/
def addPhase (σ₁ : ReplayState) (token_id : Nat) (to_addr : String) : ReplayState :=
  let ot₂ := touch σ₁.ot to_addr
  { nft := setNft σ₁.nft token_id to_addr,
    ot := setVal ot₂ to_addr (getD ot₂ to_addr ++ [token_id]) }

/-- One iteration of the `for transfer in transfers` loop. Events with
fewer than four topics are skipped by the `len(transfer['topics']) >= 4`
guard; a non-hex `topics[3]` raises `ValueError` (modelled as `.error`);
`from_addr` is computed in the script but never used. -/
def step (σ : ReplayState) (ev : TransferEvent) : Except String ReplayState :=
  if ev.topics.length ≥ 4 then
    match parseHex (ev.topics.getD 3 "") with
    | none =>
      .error ("invalid literal for int() with base 16: " ++ ev.topics.getD 3 "")
    | some token_id =>
      let to_addr := "0x" ++ lastN 40 (ev.topics.getD 2 "")
      let σ₁ := removeFromPrev σ token_id
      if to_addr ≠ ZERO_ADDRESS then
        .ok (addPhase σ₁ token_id to_addr)
      else
        .ok σ₁
  else
    .ok σ

/-- Replaying the whole event array from the empty state. -/
def replay (transfers : List TransferEvent) : Except String ReplayState :=
  transfers.foldlM step initState

/-- One entry of the `holders` summary list. -/
structure Holder where
  address : String
  tokenIds : List Nat
  tokenCount : Nat
deriving DecidableEq, Repr

/-- The `for owner, tokens in owner_tokens.items(): if tokens: ...` pass:
owners with a non-empty token list, in dict insertion order, with
`sorted(tokens)` and `len(tokens)`. Python's `sorted` is a stable sort and
a stable sort's output is uniquely determined, so the stable
`insertionSort` models it exactly. -/
def holdersUnsorted (σ : ReplayState) : List Holder :=
  (σ.ot.filter fun p => ¬ p.2.isEmpty).map fun p =>
    { address := p.1,
      tokenIds := p.2.insertionSort (· ≤ ·),
      tokenCount := p.2.length }

/-- `holders.sort(key=lambda x: x['tokenCount'], reverse=True)`: Python's
stable sort by descending token count (equal counts keep their relative
order); modelled by the stable `insertionSort` under the reversed key
comparison. -/
def sortHolders (hs : List Holder) : List Holder :=
  hs.insertionSort (fun a b => b.tokenCount ≤ a.tokenCount)

/-- The `holders` array as written to the JSON output. -/
def holdersOut (σ : ReplayState) : List Holder :=
  sortHolders (holdersUnsorted σ)

/-- `total_nfts` in the JSON output: `len(nft_owners)`. -/
def total_nfts (σ : ReplayState) : Nat := σ.nft.length

/-- `total_holders` in the JSON output: `len(holders)`. -/
def total_holders (σ : ReplayState) : Nat := (holdersOut σ).length

/-- Sum of all held-token list lengths over `owner_tokens`. -/
def totalHeld (σ : ReplayState) : Nat :=
  (σ.ot.map fun p => p.2.length).sum

/-- One data row of the CSV output:
`f"{holder['address']},{holder['tokenCount']},{';'.join(map(str, holder['tokenIds']))}"`. -/
def csvRow (h : Holder) : String :=
  h.address ++ "," ++ toString h.tokenCount ++ "," ++
    String.intercalate ";" (h.tokenIds.map toString)

/-- The CSV output as a list of lines: the header then one row per holder. -/
def csvLines (σ : ReplayState) : List String :=
  "address,token_count,token_ids" :: (holdersOut σ).map csvRow

/-- The "Save results" and "Create CSV" blocks (lines 45-59), in program
order. The JSON record passed to `json.dump` reads `FINALIZED_BLOCK`
(line 48), a name defined nowhere in the script, so evaluating the record
raises `NameError` after the JSON file has been opened for writing (and
truncated) but before anything is written; execution aborts and the CSV
block is never reached. Had the record evaluated, the files would have
held the `holders` array (`holdersOut`) and the `csvLines`. -/
def writeOutputs (σ : ReplayState) : Except String (List Holder × List String) := do
  let _ ← (Except.error "NameError: name 'FINALIZED_BLOCK' is not defined" :
    Except String Nat)
  pure (holdersOut σ, csvLines σ)

/-- The `if token_id in nft_owners ... if token_id in owner_tokens[prev_owner]`
condition: the token is currently recorded as held by a consistent owner. -/
def heldAt (σ : ReplayState) (t : Nat) : Bool :=
  match lookupNft σ.nft t with
  | some prev => decide (t ∈ getD σ.ot prev)
  | none => false

/-- Whether an event is processed as a burn: it passes the four-topic guard
and its recipient topic decodes to the zero address. -/
def isBurnEvent (ev : TransferEvent) : Bool :=
  decide (ev.topics.length ≥ 4) &&
    decide ("0x" ++ lastN 40 (ev.topics.getD 2 "") = ZERO_ADDRESS)

/-! ### Concrete events used to evaluate the code on specific inputs -/

/-- Transfer of token 1 from A to B. -/
def evAtoB : TransferEvent := ⟨["s", "A", "B", "0x1"]⟩

/-- Transfer of token 1 from B to C. -/
def evBtoC : TransferEvent := ⟨["s", "B", "C", "0x1"]⟩

/-- Burn of token 1 by B (recipient topic is the zero address). -/
def evBburn1 : TransferEvent :=
  ⟨["s", "B", "0000000000000000000000000000000000000000", "0x1"]⟩

/-- Burn of token 1 by C. -/
def evCburn1 : TransferEvent :=
  ⟨["s", "C", "0000000000000000000000000000000000000000", "0x1"]⟩

/-- Burn of token 7, a token that was never assigned to any owner. -/
def evBurn7 : TransferEvent :=
  ⟨["s", "A", "0000000000000000000000000000000000000000", "0x7"]⟩

/-- A malformed event: only three topics. -/
def evShort : TransferEvent := ⟨["s", "A", "B"]⟩

/-- Mint of token 1 to address b (the later of the two in address order). -/
def evMintB : TransferEvent := ⟨["s", "x", "b", "0x1"]⟩

/-- Mint of token 2 to address a (the earlier of the two in address order). -/
def evMintA : TransferEvent := ⟨["s", "x", "a", "0x2"]⟩

/-! ### Association-list lemmas about the two dictionaries -/

theorem getD_append_empty (l : List (String × List Nat)) (k x : String) :
    getD (l ++ [(k, [])]) x = getD l x := by
  induction l with
  | nil =>
    show getD [(k, [])] x = getD [] x
    simp only [getD]
    split <;> rfl
  | cons p t ih =>
    obtain ⟨a, w⟩ := p
    have e1 : ∀ (s : List (String × List Nat)), getD ((a, w) :: s) x
        = if a = x then w else getD s x := fun _ => rfl
    rw [List.cons_append, e1, e1, ih]

theorem getD_touch (l : List (String × List Nat)) (k x : String) :
    getD (touch l k) x = getD l x := by
  unfold touch
  split
  · rfl
  · exact getD_append_empty l k x

theorem hasKey_iff_mem (l : List (String × List Nat)) (k : String) :
    hasKey l k = true ↔ k ∈ l.map Prod.fst := by
  induction l with
  | nil => simp [hasKey]
  | cons p t ih =>
    obtain ⟨a, w⟩ := p
    simp only [hasKey, Bool.or_eq_true, decide_eq_true_eq, ih, List.map_cons, List.mem_cons]
    constructor
    · rintro (hh | hh)
      · exact Or.inl hh.symm
      · exact Or.inr hh
    · rintro (hh | hh)
      · exact Or.inl hh.symm
      · exact Or.inr hh

theorem hasKey_touch_self (l : List (String × List Nat)) (k : String) :
    hasKey (touch l k) k = true := by
  unfold touch
  split
  · assumption
  · rw [hasKey_iff_mem]
    simp

theorem getD_setVal_self (l : List (String × List Nat)) (k : String) (v : List Nat)
    (h : hasKey l k = true) : getD (setVal l k v) k = v := by
  induction l with
  | nil => simp [hasKey] at h
  | cons p t ih =>
    obtain ⟨a, w⟩ := p
    by_cases hak : a = k
    · simp [setVal, getD, hak]
    · simp [hasKey, hak] at h
      simp [setVal, getD, hak, ih h]

theorem getD_setVal_ne (l : List (String × List Nat)) (k : String) (v : List Nat)
    (x : String) (h : x ≠ k) : getD (setVal l k v) x = getD l x := by
  induction l with
  | nil => simp [setVal]
  | cons p t ih =>
    obtain ⟨a, w⟩ := p
    by_cases hak : a = k
    · have hkx : ¬ k = x := fun he => h he.symm
      simp [setVal, getD, hak, hkx]
    · by_cases hax : a = x <;> simp [setVal, getD, hak, hax, h, ih]

theorem keys_setVal (l : List (String × List Nat)) (k : String) (v : List Nat) :
    (setVal l k v).map Prod.fst = l.map Prod.fst := by
  induction l with
  | nil => simp [setVal]
  | cons p t ih =>
    obtain ⟨a, w⟩ := p
    by_cases hak : a = k <;> simp [setVal, hak, ih]

theorem nodup_keys_touch (l : List (String × List Nat)) (k : String)
    (h : (l.map Prod.fst).Nodup) : ((touch l k).map Prod.fst).Nodup := by
  unfold touch
  split
  · exact h
  · next hk =>
    have hk' : k ∉ l.map Prod.fst := by
      rw [← hasKey_iff_mem]
      simp [hk]
    simp only [List.map_append, List.map_cons, List.map_nil]
    exact List.Nodup.append h (List.nodup_singleton k) (by simpa using hk')

theorem zero_notin_keys_touch (l : List (String × List Nat)) (k : String)
    (hk : k ≠ ZERO_ADDRESS) (h : ZERO_ADDRESS ∉ l.map Prod.fst) :
    ZERO_ADDRESS ∉ (touch l k).map Prod.fst := by
  unfold touch
  split
  · exact h
  · simp only [List.map_append, List.map_cons, List.map_nil, List.mem_append,
      List.mem_singleton]
    rintro (hc | hc)
    · exact h hc
    · exact hk hc.symm

theorem lookupNft_setNft (l : List (Nat × String)) (t : Nat) (v : String) (s : Nat) :
    lookupNft (setNft l t v) s = if t = s then some v else lookupNft l s := by
  induction l with
  | nil => simp [setNft, lookupNft]
  | cons p rest ih =>
    obtain ⟨k, w⟩ := p
    by_cases hkt : k = t
    · subst hkt
      by_cases hks : k = s <;> simp [setNft, lookupNft, hks]
    · by_cases hks : k = s
      · subst hks
        have htk : ¬ t = k := fun he => hkt he.symm
        simp [setNft, lookupNft, hkt, htk]
      · simp [setNft, lookupNft, hkt, hks, ih]

theorem getD_of_mem_nodup (l : List (String × List Nat)) (k : String) (v : List Nat)
    (hnd : (l.map Prod.fst).Nodup) (hm : (k, v) ∈ l) : getD l k = v := by
  induction l with
  | nil => simp at hm
  | cons p t ih =>
    obtain ⟨a, w⟩ := p
    simp only [List.map_cons, List.nodup_cons] at hnd
    rcases List.mem_cons.mp hm with hh | hh
    · injection hh with h1 h2
      subst h1
      subst h2
      simp [getD]
    · have hak : ¬ a = k := by
        intro he
        exact hnd.1 (by rw [he]; exact List.mem_map_of_mem Prod.fst hh)
      simp [getD, hak, ih hnd.2 hh]

theorem sum_touch (l : List (String × List Nat)) (k : String) :
    ((touch l k).map fun p => p.2.length).sum = (l.map fun p => p.2.length).sum := by
  unfold touch
  split
  · rfl
  · simp

theorem sum_setVal (l : List (String × List Nat)) (k : String) (v : List Nat)
    (h : hasKey l k = true) :
    ((setVal l k v).map fun p => p.2.length).sum + (getD l k).length
      = (l.map fun p => p.2.length).sum + v.length := by
  induction l with
  | nil => simp [hasKey] at h
  | cons p t ih =>
    obtain ⟨a, w⟩ := p
    by_cases hak : a = k
    · simp [setVal, getD, hak]
      omega
    · simp [hasKey, hak] at h
      have := ih h
      simp [setVal, getD, hak]
      omega

/-! ### Properties of the removal phase -/

theorem removeFromPrev_eq_none (σ : ReplayState) (tid : Nat)
    (hl : lookupNft σ.nft tid = none) : removeFromPrev σ tid = σ := by
  unfold removeFromPrev
  rw [hl]

theorem removeFromPrev_ot_of_mem (σ : ReplayState) (tid : Nat) (prev : String)
    (hl : lookupNft σ.nft tid = some prev) (hm : tid ∈ getD σ.ot prev) :
    (removeFromPrev σ tid).ot
      = setVal (touch σ.ot prev) prev ((getD σ.ot prev).erase tid) := by
  unfold removeFromPrev
  rw [hl]
  have hm' : tid ∈ getD (touch σ.ot prev) prev := by rw [getD_touch]; exact hm
  simp [hm', hm, getD_touch]

theorem removeFromPrev_ot_of_not_mem (σ : ReplayState) (tid : Nat) (prev : String)
    (hl : lookupNft σ.nft tid = some prev) (hm : tid ∉ getD σ.ot prev) :
    (removeFromPrev σ tid).ot = touch σ.ot prev := by
  unfold removeFromPrev
  rw [hl]
  have hm' : tid ∉ getD (touch σ.ot prev) prev := by rw [getD_touch]; exact hm
  simp [hm']

theorem removeFromPrev_nft (σ : ReplayState) (tid : Nat) :
    (removeFromPrev σ tid).nft = σ.nft := by
  unfold removeFromPrev
  cases hl : lookupNft σ.nft tid with
  | none => rfl
  | some prev =>
    by_cases hm : tid ∈ getD (touch σ.ot prev) prev <;> simp [hm]

theorem removeFromPrev_getD_mem (σ : ReplayState) (tid s : Nat) (X : String)
    (hs : s ≠ tid) :
    s ∈ getD (removeFromPrev σ tid).ot X ↔ s ∈ getD σ.ot X := by
  cases hl : lookupNft σ.nft tid with
  | none => rw [removeFromPrev_eq_none σ tid hl]
  | some prev =>
    by_cases hm : tid ∈ getD σ.ot prev
    · rw [removeFromPrev_ot_of_mem σ tid prev hl hm]
      by_cases hX : X = prev
      · subst hX
        rw [getD_setVal_self _ _ _ (hasKey_touch_self _ _)]
        exact List.mem_erase_of_ne hs
      · rw [getD_setVal_ne _ _ _ _ hX, getD_touch]
    · rw [removeFromPrev_ot_of_not_mem σ tid prev hl hm, getD_touch]

theorem removeFromPrev_count_le (σ : ReplayState) (tid s : Nat) (X : String) :
    (getD (removeFromPrev σ tid).ot X).count s ≤ (getD σ.ot X).count s := by
  cases hl : lookupNft σ.nft tid with
  | none => rw [removeFromPrev_eq_none σ tid hl]
  | some prev =>
    by_cases hm : tid ∈ getD σ.ot prev
    · rw [removeFromPrev_ot_of_mem σ tid prev hl hm]
      by_cases hX : X = prev
      · subst hX
        rw [getD_setVal_self _ _ _ (hasKey_touch_self _ _)]
        exact (List.erase_sublist tid (getD σ.ot X)).count_le s
      · rw [getD_setVal_ne _ _ _ _ hX, getD_touch]
    · rw [removeFromPrev_ot_of_not_mem σ tid prev hl hm, getD_touch]

theorem removeFromPrev_not_mem (σ : ReplayState) (tid : Nat)
    (h1 : ∀ t X, t ∈ getD σ.ot X → lookupNft σ.nft t = some X)
    (h2 : ∀ t X, (getD σ.ot X).count t ≤ 1) :
    ∀ X, tid ∉ getD (removeFromPrev σ tid).ot X := by
  intro X
  cases hl : lookupNft σ.nft tid with
  | none =>
    rw [removeFromPrev_eq_none σ tid hl]
    intro hmem
    have hc := h1 tid X hmem
    rw [hl] at hc
    exact Option.noConfusion hc
  | some prev =>
    by_cases hm : tid ∈ getD σ.ot prev
    · rw [removeFromPrev_ot_of_mem σ tid prev hl hm]
      by_cases hX : X = prev
      · subst hX
        rw [getD_setVal_self _ _ _ (hasKey_touch_self _ _)]
        intro hmem'
        have hpos := List.count_pos_iff.mpr hmem'
        rw [List.count_erase_self] at hpos
        have hle := h2 tid X
        omega
      · rw [getD_setVal_ne _ _ _ _ hX, getD_touch]
        intro hmem'
        have hc := h1 tid X hmem'
        rw [hl] at hc
        exact hX (Option.some.inj hc).symm
    · rw [removeFromPrev_ot_of_not_mem σ tid prev hl hm, getD_touch]
      intro hmem'
      have hc := h1 tid X hmem'
      rw [hl] at hc
      have hXp : X = prev := (Option.some.inj hc).symm
      subst hXp
      exact hm hmem'

theorem removeFromPrev_keys_nodup (σ : ReplayState) (tid : Nat)
    (h : (σ.ot.map Prod.fst).Nodup) :
    ((removeFromPrev σ tid).ot.map Prod.fst).Nodup := by
  cases hl : lookupNft σ.nft tid with
  | none => rw [removeFromPrev_eq_none σ tid hl]; exact h
  | some prev =>
    by_cases hm : tid ∈ getD σ.ot prev
    · rw [removeFromPrev_ot_of_mem σ tid prev hl hm, keys_setVal]
      exact nodup_keys_touch σ.ot prev h
    · rw [removeFromPrev_ot_of_not_mem σ tid prev hl hm]
      exact nodup_keys_touch σ.ot prev h

theorem removeFromPrev_keys_zero (σ : ReplayState) (tid : Nat)
    (h4 : ∀ t p, lookupNft σ.nft t = some p → p ≠ ZERO_ADDRESS)
    (h5 : ZERO_ADDRESS ∉ σ.ot.map Prod.fst) :
    ZERO_ADDRESS ∉ (removeFromPrev σ tid).ot.map Prod.fst := by
  cases hl : lookupNft σ.nft tid with
  | none => rw [removeFromPrev_eq_none σ tid hl]; exact h5
  | some prev =>
    have hp : prev ≠ ZERO_ADDRESS := h4 tid prev hl
    by_cases hm : tid ∈ getD σ.ot prev
    · rw [removeFromPrev_ot_of_mem σ tid prev hl hm, keys_setVal]
      exact zero_notin_keys_touch σ.ot prev hp h5
    · rw [removeFromPrev_ot_of_not_mem σ tid prev hl hm]
      exact zero_notin_keys_touch σ.ot prev hp h5

theorem removeFromPrev_totalHeld_of_held (σ : ReplayState) (tid : Nat) (prev : String)
    (hl : lookupNft σ.nft tid = some prev) (hm : tid ∈ getD σ.ot prev) :
    totalHeld (removeFromPrev σ tid) + 1 = totalHeld σ := by
  unfold totalHeld
  rw [removeFromPrev_ot_of_mem σ tid prev hl hm]
  have hs := sum_setVal (touch σ.ot prev) prev ((getD σ.ot prev).erase tid)
    (hasKey_touch_self _ _)
  rw [getD_touch] at hs
  have hst := sum_touch σ.ot prev
  have hlen : ((getD σ.ot prev).erase tid).length = (getD σ.ot prev).length - 1 :=
    List.length_erase_of_mem hm
  have hpos : 0 < (getD σ.ot prev).length := List.length_pos_of_mem hm
  omega

theorem removeFromPrev_totalHeld_of_not_held (σ : ReplayState) (tid : Nat)
    (h : heldAt σ tid = false) :
    totalHeld (removeFromPrev σ tid) = totalHeld σ := by
  unfold heldAt at h
  cases hl : lookupNft σ.nft tid with
  | none => rw [removeFromPrev_eq_none σ tid hl]
  | some prev =>
    rw [hl] at h
    simp only [decide_eq_false_iff_not] at h
    unfold totalHeld
    rw [removeFromPrev_ot_of_not_mem σ tid prev hl h]
    exact sum_touch σ.ot prev

/-! ### The replay invariant -/

/-- The inductive invariant maintained by the replay loop: every token
listed under an owner in `owner_tokens` is recorded as owned by that owner
in `nft_owners`; no token occurs twice in a list; the `owner_tokens` keys
are unique; no recorded owner is the zero address; and the zero address is
never an `owner_tokens` key. -/
def StateInv (σ : ReplayState) : Prop :=
  (∀ t X, t ∈ getD σ.ot X → lookupNft σ.nft t = some X) ∧
  (∀ t X, (getD σ.ot X).count t ≤ 1) ∧
  (σ.ot.map Prod.fst).Nodup ∧
  (∀ t p, lookupNft σ.nft t = some p → p ≠ ZERO_ADDRESS) ∧
  ZERO_ADDRESS ∉ σ.ot.map Prod.fst

theorem initState_inv : StateInv initState := by
  refine ⟨?_, ?_, ?_, ?_, ?_⟩
  · intro t X hm
    simp [initState, getD] at hm
  · intro t X
    simp [initState, getD]
  · simp [initState]
  · intro t p hl
    simp [initState, lookupNft] at hl
  · simp [initState]

theorem removeFromPrev_inv (σ : ReplayState) (tid : Nat) (h : StateInv σ) :
    StateInv (removeFromPrev σ tid) := by
  obtain ⟨h1, h2, h3, h4, h5⟩ := h
  refine ⟨?_, ?_, ?_, ?_, ?_⟩
  · intro s X hm
    rw [removeFromPrev_nft]
    have hne : s ≠ tid := by
      intro he
      exact removeFromPrev_not_mem σ tid h1 h2 X (he ▸ hm)
    exact h1 s X ((removeFromPrev_getD_mem σ tid s X hne).mp hm)
  · intro s X
    exact Nat.le_trans (removeFromPrev_count_le σ tid s X) (h2 s X)
  · exact removeFromPrev_keys_nodup σ tid h3
  · intro t p hl
    rw [removeFromPrev_nft] at hl
    exact h4 t p hl
  · exact removeFromPrev_keys_zero σ tid h4 h5

theorem addPhase_nft (ρ : ReplayState) (tid : Nat) (to_addr : String) :
    (addPhase ρ tid to_addr).nft = setNft ρ.nft tid to_addr := rfl

theorem addPhase_getD (ρ : ReplayState) (tid : Nat) (to_addr X : String) :
    getD (addPhase ρ tid to_addr).ot X
      = if X = to_addr then getD ρ.ot to_addr ++ [tid] else getD ρ.ot X := by
  show getD (setVal (touch ρ.ot to_addr) to_addr (getD (touch ρ.ot to_addr) to_addr ++ [tid])) X = _
  by_cases hX : X = to_addr
  · subst hX
    rw [getD_setVal_self _ _ _ (hasKey_touch_self _ _), getD_touch, if_pos rfl]
  · rw [getD_setVal_ne _ _ _ _ hX, getD_touch, if_neg hX]

theorem addPhase_inv (ρ : ReplayState) (tid : Nat) (to_addr : String)
    (hz : to_addr ≠ ZERO_ADDRESS) (hρ : StateInv ρ)
    (hnot : ∀ X, tid ∉ getD ρ.ot X) : StateInv (addPhase ρ tid to_addr) := by
  obtain ⟨h1, h2, h3, h4, h5⟩ := hρ
  refine ⟨?_, ?_, ?_, ?_, ?_⟩
  · intro s X hm
    rw [addPhase_getD] at hm
    show lookupNft (setNft ρ.nft tid to_addr) s = some X
    rw [lookupNft_setNft]
    by_cases hX : X = to_addr
    · rw [if_pos hX] at hm
      rcases List.mem_append.mp hm with hmem | hmem
      · have hne : s ≠ tid := fun he => hnot to_addr (he ▸ hmem)
        rw [if_neg fun he => hne he.symm, hX]
        exact h1 s to_addr hmem
      · have hst : s = tid := by simpa using hmem
        rw [if_pos hst.symm, hX]
    · rw [if_neg hX] at hm
      have hne : s ≠ tid := fun he => hnot X (he ▸ hm)
      rw [if_neg fun he => hne he.symm]
      exact h1 s X hm
  · intro s X
    rw [addPhase_getD]
    by_cases hX : X = to_addr
    · rw [if_pos hX, List.count_append]
      by_cases hst : s = tid
      · have hz0 : (getD ρ.ot to_addr).count tid = 0 :=
          List.count_eq_zero.mpr (hnot to_addr)
        simp [hz0, hst, List.count_cons]
      · have hc1 : List.count s [tid] = 0 := by simp [List.count_cons, hst]
        rw [hc1]
        simpa using h2 s to_addr
    · rw [if_neg hX]
      exact h2 s X
  · show ((setVal (touch ρ.ot to_addr) to_addr (getD (touch ρ.ot to_addr) to_addr ++ [tid])).map Prod.fst).Nodup
    rw [keys_setVal]
    exact nodup_keys_touch ρ.ot to_addr h3
  · intro t p hl
    rw [addPhase_nft, lookupNft_setNft] at hl
    by_cases hts : tid = t
    · rw [if_pos hts] at hl
      rw [← Option.some.inj hl]
      exact hz
    · rw [if_neg hts] at hl
      exact h4 t p hl
  · show ZERO_ADDRESS ∉ ((setVal (touch ρ.ot to_addr) to_addr (getD (touch ρ.ot to_addr) to_addr ++ [tid])).map Prod.fst)
    rw [keys_setVal]
    exact zero_notin_keys_touch ρ.ot to_addr hz h5

theorem step_preserves_inv (σ σ' : ReplayState) (ev : TransferEvent)
    (hinv : StateInv σ) (hs : step σ ev = .ok σ') : StateInv σ' := by
  unfold step at hs
  split at hs
  · split at hs
    · exact Except.noConfusion hs
    · rename_i tid hp
      dsimp only [] at hs
      split at hs
      · rename_i hz
        injection hs with hs
        subst hs
        exact addPhase_inv _ tid _ hz (removeFromPrev_inv σ tid hinv)
          (removeFromPrev_not_mem σ tid hinv.1 hinv.2.1)
      · rename_i hz
        injection hs with hs
        subst hs
        exact removeFromPrev_inv σ tid hinv
  · injection hs with hs
    subst hs
    exact hinv

theorem foldlM_inv (evts : List TransferEvent) :
    ∀ σ₀ σ : ReplayState, StateInv σ₀ → evts.foldlM step σ₀ = .ok σ → StateInv σ := by
  induction evts with
  | nil =>
    intro σ₀ σ h hf
    rw [List.foldlM_nil] at hf
    exact (Except.ok.inj hf) ▸ h
  | cons e es ih =>
    intro σ₀ σ h hf
    rw [List.foldlM_cons] at hf
    cases hstep : step σ₀ e with
    | error msg =>
      rw [hstep] at hf
      exact Except.noConfusion hf
    | ok σ₁ =>
      rw [hstep] at hf
      exact ih σ₁ σ (step_preserves_inv σ₀ σ₁ e h hstep) hf

theorem replay_StateInv (evts : List TransferEvent) (σ : ReplayState)
    (h : replay evts = .ok σ) : StateInv σ :=
  foldlM_inv evts initState σ initState_inv h

/-- A step on an event that passes the guard and whose recipient decodes to
the zero address performs only the removal phase. -/
theorem step_burn (σ : ReplayState) (ev : TransferEvent) (tid : Nat)
    (hg : ev.topics.length ≥ 4) (hp : parseHex (ev.topics.getD 3 "") = some tid)
    (hz : "0x" ++ lastN 40 (ev.topics.getD 2 "") = ZERO_ADDRESS) :
    step σ ev = .ok (removeFromPrev σ tid) := by
  unfold step
  rw [if_pos hg, hp]
  show (if "0x" ++ lastN 40 (ev.topics.getD 2 "") ≠ ZERO_ADDRESS then Except.ok (addPhase (removeFromPrev σ tid) tid ("0x" ++ lastN 40 (ev.topics.getD 2 ""))) else Except.ok (removeFromPrev σ tid)) = Except.ok (removeFromPrev σ tid)
  rw [if_neg fun hne => hne hz]

/-- A step on an event that passes the guard and whose recipient is not the
zero address performs the removal phase followed by the add phase. -/
theorem step_transfer (σ : ReplayState) (ev : TransferEvent) (tid : Nat)
    (hg : ev.topics.length ≥ 4) (hp : parseHex (ev.topics.getD 3 "") = some tid)
    (hz : "0x" ++ lastN 40 (ev.topics.getD 2 "") ≠ ZERO_ADDRESS) :
    step σ ev = .ok (addPhase (removeFromPrev σ tid) tid ("0x" ++ lastN 40 (ev.topics.getD 2 ""))) := by
  unfold step
  rw [if_pos hg, hp]
  show (if "0x" ++ lastN 40 (ev.topics.getD 2 "") ≠ ZERO_ADDRESS then Except.ok (addPhase (removeFromPrev σ tid) tid ("0x" ++ lastN 40 (ev.topics.getD 2 ""))) else Except.ok (removeFromPrev σ tid)) = Except.ok (addPhase (removeFromPrev σ tid) tid ("0x" ++ lastN 40 (ev.topics.getD 2 "")))
  rw [if_pos hz]

end NftHolders

namespace NftHolders

/-- C1: the spec's invariant says a token whose most recent transfer sent it
to the zero address must be absent from the tokenId-to-owner mapping. The
code violates it: after `A→B token 1` then `B→0x0 token 1` (a burn), the
`nft_owners` dict still maps token 1 to `0xB`, because the burn branch never
deletes the entry; only `owner_tokens` is updated (the holder summary is
empty, yet the snapshot mapping is not). -/
theorem c1_burned_token_remains_in_snapshot :
    isBurnEvent evBburn1 = true ∧
      (replay [evAtoB, evBburn1]).map
          (fun σ => (lookupNft σ.nft 1, holdersOut σ, total_nfts σ))
        = .ok (some "0xB", [], 1) := by
  decide

/-- C2: on the spec's example `[(A→B,1), (B→C,1), (C→0x0,1)]` the holder
summary is indeed empty, but the reported `total_nfts` (the size of
`nft_owners`) is 1, not 0: the burned token stays in the snapshot mapping. -/
theorem c2_example_total_nfts_is_one :
    (replay [evAtoB, evBtoC, evCburn1]).map
        (fun σ => (holdersOut σ, total_holders σ, total_nfts σ))
      = .ok ([], 0, 1) := by
  decide

/-- C4: a transfer event with fewer than four topics is silently skipped by
the `len(transfer['topics']) >= 4` guard: the run does not fail, the
malformed event leaves the state unchanged, and subsequent events are
processed normally. -/
theorem c4_short_event_silently_skipped :
    replay [evShort] = .ok initState ∧
      replay [evShort, evAtoB] = replay [evAtoB] := by
  decide

/-- C3 counterexample: minting token 1 to `b` and then token 2 to `a` gives
two holders with equal token counts, listed as `0xb` before `0xa` even
though `"0xa" < "0xb"`: equal-count holders appear in dict insertion order,
not ascending address order. -/
theorem c3_counterexample_tie_not_by_address :
    (replay [evMintB, evMintA]).map holdersOut
        = .ok [{ address := "0xb", tokenIds := [1], tokenCount := 1 },
               { address := "0xa", tokenIds := [2], tokenCount := 1 }] ∧
      "0xa".data < "0xb".data := by
  decide

/-- C6 counterexample: burning token 7, which no owner currently holds,
leaves the total held-token count unchanged at 0: this burn event does not
strictly decrease the count by one. -/
theorem c6_counterexample_burn_of_unheld_token :
    isBurnEvent evBurn7 = true ∧
      replay [evBurn7] = .ok initState ∧
      totalHeld initState = 0 ∧
      ¬ totalHeld initState = totalHeld initState + 1 := by
  decide

/-- C7: the replay is a deterministic function of the event list: two runs
from the empty state on the same input produce the same state, hence the
same holder summary and the same CSV output. -/
theorem c7_replay_deterministic (evts : List TransferEvent) (σ₁ σ₂ : ReplayState)
    (h₁ : replay evts = .ok σ₁) (h₂ : replay evts = .ok σ₂) :
    σ₁ = σ₂ ∧ holdersOut σ₁ = holdersOut σ₂ ∧ csvLines σ₁ = csvLines σ₂ := by
  rw [h₁] at h₂
  cases h₂
  exact ⟨rfl, rfl, rfl⟩

/-- Witness for C7 at the concrete one-event run `[evAtoB]`. -/
theorem c7_replay_deterministic_witness :
    ({ nft := [(1, "0xB")], ot := [("0xB", [1])] } : ReplayState)
        = { nft := [(1, "0xB")], ot := [("0xB", [1])] } ∧
      holdersOut { nft := [(1, "0xB")], ot := [("0xB", [1])] }
        = holdersOut { nft := [(1, "0xB")], ot := [("0xB", [1])] } ∧
      csvLines { nft := [(1, "0xB")], ot := [("0xB", [1])] }
        = csvLines { nft := [(1, "0xB")], ot := [("0xB", [1])] } :=
  c7_replay_deterministic [evAtoB] _ _ (by decide) (by decide)


/-- Inserting a holder with `orderedInsert` under the descending-count
comparison places it before every element of equal count (stability of one
insertion): the count-`c` subsequence gains `a` at the front exactly when
`a` has count `c`, and is untouched otherwise. -/
theorem filter_orderedInsert_count (a : Holder) (m : List Holder) (c : Nat) :
    (List.orderedInsert (fun x y => y.tokenCount ≤ x.tokenCount) a m).filter
        (fun h => h.tokenCount == c)
      = if a.tokenCount = c
        then a :: m.filter (fun h => h.tokenCount == c)
        else m.filter (fun h => h.tokenCount == c) := by
  induction m with
  | nil =>
    by_cases hc : a.tokenCount = c <;>
      simp [List.orderedInsert, List.filter_cons, hc]
  | cons b m ih =>
    by_cases hr : b.tokenCount ≤ a.tokenCount
    · have he : List.orderedInsert (fun x y => y.tokenCount ≤ x.tokenCount) a (b :: m)
          = a :: b :: m := by
        simp [List.orderedInsert, hr]
      rw [he]
      by_cases hc : a.tokenCount = c <;>
        simp [List.filter_cons, hc]
    · have hab : a.tokenCount < b.tokenCount := Nat.lt_of_not_le hr
      have he : List.orderedInsert (fun x y => y.tokenCount ≤ x.tokenCount) a (b :: m)
          = b :: List.orderedInsert (fun x y => y.tokenCount ≤ x.tokenCount) a m := by
        simp [List.orderedInsert, hr]
      rw [he]
      by_cases hc : a.tokenCount = c
      · have hbc : ¬ b.tokenCount = c := by omega
        simp [List.filter_cons, hbc, hc, ih]
      · simp [List.filter_cons, hc, ih]

/-- Stability of the descending-count insertion sort: for every count `c`,
the subsequence of count-`c` holders in the sorted output is exactly the
count-`c` subsequence of the input, in the same order. -/
theorem filter_insertionSort_count (l : List Holder) (c : Nat) :
    (List.insertionSort (fun x y => y.tokenCount ≤ x.tokenCount) l).filter
        (fun h => h.tokenCount == c)
      = l.filter (fun h => h.tokenCount == c) := by
  induction l with
  | nil => rfl
  | cons a l ih =>
    simp only [List.insertionSort]
    rw [filter_orderedInsert_count, ih]
    by_cases hc : a.tokenCount = c <;> simp [List.filter_cons, hc]

/-- C3 (amended): the holders list is sorted by descending token count, as a
permutation of the unsorted accumulation pass, and the sort is stable:
for every count `c`, the holders of count `c` appear in the output in
exactly their dict-insertion order (the order of the accumulation pass),
not ascending address order. -/
theorem c3_amended_holders_sorted_desc (σ : ReplayState) :
    (holdersOut σ).Pairwise (fun a b => b.tokenCount ≤ a.tokenCount) ∧
    (holdersOut σ).Perm (holdersUnsorted σ) ∧
    (∀ c : Nat, (holdersOut σ).filter (fun h => h.tokenCount == c)
        = (holdersUnsorted σ).filter (fun h => h.tokenCount == c)) := by
  refine ⟨?_, List.perm_insertionSort _ _, ?_⟩
  · haveI : IsTotal Holder (fun a b => b.tokenCount ≤ a.tokenCount) :=
      ⟨fun a b => Nat.le_total b.tokenCount a.tokenCount⟩
    haveI : IsTrans Holder (fun a b => b.tokenCount ≤ a.tokenCount) :=
      ⟨fun a b c hab hbc => Nat.le_trans hbc hab⟩
    exact List.sorted_insertionSort _ _
  · intro c
    exact filter_insertionSort_count (holdersUnsorted σ) c

/-- C5: after replaying any event sequence, every token id occurs in the
token list of at most one owner, at most once in that list; hence in the
holder summary each token id belongs to at most one holder and occurs at
most once in that holder's `tokenIds`. -/
theorem c5_token_exclusivity (evts : List TransferEvent) (σ : ReplayState)
    (h : replay evts = .ok σ) :
    (∀ t X Y, t ∈ getD σ.ot X → t ∈ getD σ.ot Y → X = Y) ∧
    (∀ t X, (getD σ.ot X).count t ≤ 1) ∧
    (∀ t h₁ h₂, h₁ ∈ holdersOut σ → h₂ ∈ holdersOut σ →
      t ∈ h₁.tokenIds → t ∈ h₂.tokenIds → h₁ = h₂) ∧
    (∀ t hh, hh ∈ holdersOut σ → hh.tokenIds.count t ≤ 1) := by
  obtain ⟨h1, h2, h3, _, _⟩ := replay_StateInv evts σ h
  have excl : ∀ t X Y, t ∈ getD σ.ot X → t ∈ getD σ.ot Y → X = Y := by
    intro t X Y hX hY
    have e1 := h1 t X hX
    have e2 := h1 t Y hY
    rw [e1] at e2
    exact Option.some.inj e2
  have hmemOut : ∀ hh : Holder, hh ∈ holdersOut σ ↔ hh ∈ holdersUnsorted σ :=
    fun _ => (List.perm_insertionSort _ _).mem_iff
  have hch : ∀ hh : Holder, hh ∈ holdersUnsorted σ →
      hh = { address := hh.address,
             tokenIds := (getD σ.ot hh.address).insertionSort (· ≤ ·),
             tokenCount := (getD σ.ot hh.address).length } := by
    intro hh hmem
    obtain ⟨p, hp, hpe⟩ := List.mem_map.mp hmem
    obtain ⟨a, w⟩ := p
    have hg : getD σ.ot a = w := getD_of_mem_nodup σ.ot a w h3 (List.mem_of_mem_filter hp)
    rw [← hpe]
    simp [hg]
  have htid : ∀ hh : Holder, hh ∈ holdersUnsorted σ →
      ∀ t, t ∈ hh.tokenIds ↔ t ∈ getD σ.ot hh.address := by
    intro hh hmem t
    conv_lhs => rw [hch hh hmem]
    exact List.mem_insertionSort _
  refine ⟨excl, h2, ?_, ?_⟩
  · intro t hh1 hh2 hm1 hm2 ht1 ht2
    rw [hmemOut] at hm1 hm2
    have ha : hh1.address = hh2.address :=
      excl t _ _ ((htid hh1 hm1 t).mp ht1) ((htid hh2 hm2 t).mp ht2)
    rw [hch hh1 hm1, hch hh2 hm2, ha]
  · intro t hh hm
    rw [hmemOut] at hm
    have hcnt : hh.tokenIds.count t = (getD σ.ot hh.address).count t := by
      conv_lhs => rw [hch hh hm]
      exact (List.perm_insertionSort _ _).count_eq t
    rw [hcnt]
    exact h2 t hh.address

/-- Witness for C5 on the one-event run `[evAtoB]`. -/
theorem c5_token_exclusivity_witness :
    (∀ t X Y, t ∈ getD ({ nft := [(1, "0xB")], ot := [("0xB", [1])] } : ReplayState).ot X →
        t ∈ getD ({ nft := [(1, "0xB")], ot := [("0xB", [1])] } : ReplayState).ot Y → X = Y) ∧
    (∀ t X, (getD ({ nft := [(1, "0xB")], ot := [("0xB", [1])] } : ReplayState).ot X).count t ≤ 1) ∧
    (∀ t h₁ h₂, h₁ ∈ holdersOut { nft := [(1, "0xB")], ot := [("0xB", [1])] } →
      h₂ ∈ holdersOut { nft := [(1, "0xB")], ot := [("0xB", [1])] } →
      t ∈ h₁.tokenIds → t ∈ h₂.tokenIds → h₁ = h₂) ∧
    (∀ t hh, hh ∈ holdersOut { nft := [(1, "0xB")], ot := [("0xB", [1])] } →
      hh.tokenIds.count t ≤ 1) :=
  c5_token_exclusivity [evAtoB] _ (by decide)


/-- C6 (amended): a burn event decreases the total held-token count by
exactly one when the token is currently held by a consistent owner, and
leaves it unchanged otherwise; and the zero address never appears as a
holder in the summary of any replay. -/
theorem c6_amended_burn_behavior :
    (∀ evts σ ev σ' tid, replay evts = .ok σ →
        ev.topics.length ≥ 4 →
        parseHex (ev.topics.getD 3 "") = some tid →
        "0x" ++ lastN 40 (ev.topics.getD 2 "") = ZERO_ADDRESS →
        step σ ev = .ok σ' →
        (heldAt σ tid = true → totalHeld σ' + 1 = totalHeld σ) ∧
        (heldAt σ tid = false → totalHeld σ' = totalHeld σ)) ∧
    (∀ evts σ, replay evts = .ok σ →
        ZERO_ADDRESS ∉ (holdersOut σ).map Holder.address) := by
  constructor
  · intro evts σ ev σ' tid _ hg hp hz hs
    have hσ' : σ' = removeFromPrev σ tid := by
      rw [step_burn σ ev tid hg hp hz] at hs
      exact (Except.ok.inj hs).symm
    subst hσ'
    constructor
    · intro hheld
      unfold heldAt at hheld
      cases hl : lookupNft σ.nft tid with
      | none =>
        rw [hl] at hheld
        exact absurd hheld (by simp)
      | some prev =>
        rw [hl] at hheld
        simp only [decide_eq_true_eq] at hheld
        exact removeFromPrev_totalHeld_of_held σ tid prev hl hheld
    · intro hnotheld
      exact removeFromPrev_totalHeld_of_not_held σ tid hnotheld
  · intro evts σ hrep
    obtain ⟨_, _, _, _, h5⟩ := replay_StateInv evts σ hrep
    intro hmem
    obtain ⟨hh, hhm, hha⟩ := List.mem_map.mp hmem
    have hiff : hh ∈ holdersOut σ ↔ hh ∈ holdersUnsorted σ :=
      (List.perm_insertionSort _ _).mem_iff
    rw [hiff] at hhm
    obtain ⟨p, hp, hpe⟩ := List.mem_map.mp hhm
    apply h5
    rw [← hpe] at hha
    have hpz : p.1 = ZERO_ADDRESS := hha
    rw [← hpz]
    exact List.mem_map_of_mem Prod.fst (List.mem_of_mem_filter hp)

/-- Witness for C6 (amended): burning token 1 held by `0xB` drops the total
held count from 1 to 0. -/
theorem c6_amended_burn_behavior_witness :
    totalHeld { nft := [(1, "0xB")], ot := [("0xB", [])] } + 1
      = totalHeld { nft := [(1, "0xB")], ot := [("0xB", [1])] } :=
  (c6_amended_burn_behavior.1 [evAtoB] { nft := [(1, "0xB")], ot := [("0xB", [1])] }
    evBburn1 { nft := [(1, "0xB")], ot := [("0xB", [])] } 1
    (by decide) (by decide) (by decide) (by decide) (by decide)).1 (by decide)

/-- C8: when the snapshot says token `tid` is owned by `prev` but `prev`'s
token list does not contain it, the removal step is a recoverable no-op:
every owner's token list is unchanged, the snapshot is unchanged, no error
is raised, and the event is still processed (the step returns a state). -/
theorem c8_lookup_inconsistency_noop (σ : ReplayState) (tid : Nat) (prev : String)
    (hl : lookupNft σ.nft tid = some prev) (hm : tid ∉ getD σ.ot prev) :
    (∀ X, getD (removeFromPrev σ tid).ot X = getD σ.ot X) ∧
    (removeFromPrev σ tid).nft = σ.nft ∧
    (∀ ev : TransferEvent, ev.topics.length ≥ 4 →
      parseHex (ev.topics.getD 3 "") = some tid →
      ∃ σ', step σ ev = .ok σ') := by
  refine ⟨?_, removeFromPrev_nft σ tid, ?_⟩
  · intro X
    rw [removeFromPrev_ot_of_not_mem σ tid prev hl hm, getD_touch]
  · intro ev hg hp
    by_cases hz : "0x" ++ lastN 40 (ev.topics.getD 2 "") ≠ ZERO_ADDRESS
    · exact ⟨_, step_transfer σ ev tid hg hp hz⟩
    · exact ⟨_, step_burn σ ev tid hg hp (not_not.mp hz)⟩

/-- Witness for C8 on the inconsistent state mapping token 1 to `0xA` with
an empty `owner_tokens`. -/
theorem c8_lookup_inconsistency_noop_witness :
    (∀ X, getD (removeFromPrev { nft := [(1, "0xA")], ot := [] } 1).ot X
        = getD ({ nft := [(1, "0xA")], ot := [] } : ReplayState).ot X) ∧
    (removeFromPrev { nft := [(1, "0xA")], ot := [] } 1).nft
        = ({ nft := [(1, "0xA")], ot := [] } : ReplayState).nft ∧
    (∀ ev : TransferEvent, ev.topics.length ≥ 4 →
      parseHex (ev.topics.getD 3 "") = some 1 →
      ∃ σ', step { nft := [(1, "0xA")], ot := [] } ev = .ok σ') :=
  c8_lookup_inconsistency_noop { nft := [(1, "0xA")], ot := [] } 1 "0xA"
    (by decide) (by decide)

/-- C9: the output phase never runs to completion on any state: evaluating
the JSON record raises `NameError` on the undefined `FINALIZED_BLOCK`
before `json.dump` writes and before the CSV block is reached, so neither
the JSON holders array nor the CSV file is ever emitted and the claimed
row-by-row agreement of the two output files is vacuously about files that
do not exist. (The in-memory data the code was about to write would have
agreed by construction: the CSV is the header followed by one `csvRow` per
holder of the same `holders` list.) -/
theorem c9_output_phase_always_fails (σ : ReplayState) :
    writeOutputs σ = .error "NameError: name 'FINALIZED_BLOCK' is not defined" ∧
    csvLines σ = "address,token_count,token_ids" :: (holdersOut σ).map csvRow :=
  ⟨rfl, rfl⟩


/-- C10: holder identity is raw string equality of `'0x' +` the last 40
characters of the recipient topic, with no case normalization: two mint
events whose recipient topics encode the same address with different hex
letter case (equal after lowercasing, unequal as raw strings) produce two
distinct holder keys, hence two distinct holders in the summary. -/
theorem c10_case_sensitive_holder_keys (ta tb tk1 tk2 : String) (n1 n2 : Nat)
    (hp1 : parseHex tk1 = some n1) (hp2 : parseHex tk2 = some n2) (hne : n1 ≠ n2)
    (hcase : (lastN 40 ta).data.map Char.toLower = (lastN 40 tb).data.map Char.toLower)
    (hdiff : lastN 40 ta ≠ lastN 40 tb)
    (hza : "0x" ++ lastN 40 ta ≠ ZERO_ADDRESS)
    (hzb : "0x" ++ lastN 40 tb ≠ ZERO_ADDRESS) :
    ∃ σ, replay [⟨["", "", ta, tk1]⟩, ⟨["", "", tb, tk2]⟩] = .ok σ ∧
      holdersOut σ
        = [{ address := "0x" ++ lastN 40 ta, tokenIds := [n1], tokenCount := 1 },
           { address := "0x" ++ lastN 40 tb, tokenIds := [n2], tokenCount := 1 }] ∧
      "0x" ++ lastN 40 ta ≠ "0x" ++ lastN 40 tb := by
  have hk : "0x" ++ lastN 40 ta ≠ "0x" ++ lastN 40 tb := by
    intro he
    apply hdiff
    have hd := congrArg String.data he
    rw [String.data_append, String.data_append] at hd
    exact String.ext (List.append_cancel_left hd)
  set ka := "0x" ++ lastN 40 ta with hka
  set kb := "0x" ++ lastN 40 tb with hkb
  have hs1 : step initState ⟨["", "", ta, tk1]⟩ = .ok { nft := [(n1, ka)], ot := [(ka, [n1])] } := by
    have := step_transfer initState ⟨["", "", ta, tk1]⟩ n1 Nat.le.refl hp1 hza
    rw [this, removeFromPrev_eq_none initState n1 rfl]
    simp [addPhase, touch, hasKey, setVal, setNft, getD, initState]
  have hs2 : step { nft := [(n1, ka)], ot := [(ka, [n1])] } ⟨["", "", tb, tk2]⟩
      = .ok { nft := [(n1, ka), (n2, kb)], ot := [(ka, [n1]), (kb, [n2])] } := by
    have hl2 : lookupNft [(n1, ka)] n2 = none := by
      simp [lookupNft, hne]
    have := step_transfer { nft := [(n1, ka)], ot := [(ka, [n1])] } ⟨["", "", tb, tk2]⟩ n2
      Nat.le.refl hp2 hzb
    rw [this, removeFromPrev_eq_none _ n2 hl2]
    simp [addPhase, touch, hasKey, setVal, setNft, getD, hk, hne]
  refine ⟨{ nft := [(n1, ka), (n2, kb)], ot := [(ka, [n1]), (kb, [n2])] }, ?_, ?_, hk⟩
  · unfold replay
    rw [List.foldlM_cons, hs1]
    show List.foldlM step { nft := [(n1, ka)], ot := [(ka, [n1])] } [⟨["", "", tb, tk2]⟩] = _
    rw [List.foldlM_cons, hs2]
    rfl
  · simp [holdersOut, sortHolders, holdersUnsorted]

/-- Witness for C10: topics `"Ab"` and `"ab"` encode the same address with
different case and yield two distinct holders. -/
theorem c10_case_sensitive_holder_keys_witness :
    ∃ σ, replay [⟨["", "", "Ab", "1"]⟩, ⟨["", "", "ab", "2"]⟩] = .ok σ ∧
      holdersOut σ
        = [{ address := "0x" ++ lastN 40 "Ab", tokenIds := [1], tokenCount := 1 },
           { address := "0x" ++ lastN 40 "ab", tokenIds := [2], tokenCount := 1 }] ∧
      "0x" ++ lastN 40 "Ab" ≠ "0x" ++ lastN 40 "ab" :=
  c10_case_sensitive_holder_keys "Ab" "ab" "1" "2" 1 2 (by decide) (by decide)
    (by decide) (by decide) (by decide) (by decide) (by decide)

end NftHolders
